import Mathlib

/-! Shallow embedding of the fancyflags module `_definitions.py` (structured
dict flags).  Python values are modelled by the inductive type `Value`;
Python dicts are modelled as ordered association lists, matching insertion
order semantics.  The absl flag machinery that the source subclasses
(`flags.Flag`, `flags.MultiFlag`) is embedded only in the parts the source
relies on: parsing of the default at flag construction (`Flag._set_default`
parses a non-None default and then assigns it through the `value` property
setter), `Flag.parse` (parse the argument, assign through the setter, bump
`present`; `allow_overwrite` is left at its absl default of True, so a
second parse overwrites), and `MultiFlag.parse` (normalize the argument
into a list, parse each element, and accumulate across occurrences).
Stateful Python code is modelled by explicit state passing: every
operation that mutates the aliased shared dict returns the new dict. -/

namespace FancyFlags

/-- Python runtime values, as far as the claims need them.  `tuple` stands
for a generic non-list, non-string iterable; iterating a Python `dict`
yields its keys.  `none` is the Python object None. -/
inductive Value where
  | none
  | str (s : String)
  | int (n : Int)
  | bool (b : Bool)
  | vlist (xs : List Value)
  | tuple (xs : List Value)
  | dict (entries : List (String × Value))

/-- Lookup in a Python dict modelled as an association list: first match. -/
def assocGet : List (String × Value) → String → Option Value
  | [], _ => Option.none
  | (k, v) :: rest, key => if k = key then some v else assocGet rest key

/-- Python dict assignment `d[key] = v`: replace in place if the key is
present (Python keeps the original insertion position), append otherwise. -/
def assocSet : List (String × Value) → String → Value → List (String × Value)
  | [], key, v => [(key, v)]
  | (k, w) :: rest, key, v =>
      if k = key then (key, v) :: rest else (k, w) :: assocSet rest key v

/-- Python test `value == _EMPTY` where `_EMPTY = ""`: true exactly for the
empty string (equality between a non-string value and a string is False). -/
def eqEmptyStr : Value → Bool
  | Value.str s => s == ""
  | _ => false

/-- Python `isinstance(v, collections.abc.Iterable)`. -/
def Value.isIterable : Value → Bool
  | Value.str _ => true
  | Value.vlist _ => true
  | Value.tuple _ => true
  | Value.dict _ => true
  | _ => false

/-- Python `isinstance(v, str)`. -/
def Value.isStr : Value → Bool
  | Value.str _ => true
  | _ => false

/-- Python `list(v)` for an iterable `v`: a list yields its elements, a
tuple its elements, a dict its keys, a string its characters. -/
def Value.iterToList : Value → List Value
  | Value.vlist xs => xs
  | Value.tuple xs => xs
  | Value.dict es => es.map (fun e => Value.str e.1)
  | Value.str s => s.toList.map (fun c => Value.str (String.mk [c]))
  | _ => []

/-- The normalization shared by `MultiItem.__init__` and the absl
`MultiFlag._parse`: a non-string iterable is converted to a list via
`list(Β·)`, and then anything that is still not a list is wrapped into a
one-element list.  (The source also excludes `bytes` alongside `str`;
`Value` has no separate bytes constructor, so that case does not arise.) -/
def normalizeToList (v : Value) : List Value :=
  let v1 := if v.isIterable && !v.isStr then Value.vlist v.iterToList else v
  match v1 with
  | Value.vlist xs => xs
  | x => [x]

/-- The Python value stored for a multi flag value: None or a list. -/
def multiValueToValue : Option (List Value) → Value
  | Option.none => Value.none
  | some xs => Value.vlist xs

/-- Python exceptions that the modelled code can raise. -/
inductive PyError where
  | valueError (msg : String)
  | typeError (msg : String)
  | illegalFlagValue (msg : String)
  | keyError
deriving DecidableEq

/-- A `flags.ArgumentParser` is modelled by its `parse` method: a partial
function from values to values. -/
def ParserFn : Type := Value → Except String Value

/-- The state stored by `Item.__init__`: the (already parsed) default and
the parser.  Help string and serializer are omitted: no claim concerns
them. -/
structure Item where
  default : Value
  parser : ParserFn

/-- Models `Item.__init__(default, help_string, parser)`: a None default is
stored unchanged, any other default is passed through `parser.parse` and
the parsed result is stored; a parser failure propagates (so it surfaces
at definition time). -/
def Item.init (default : Value) (parser : ParserFn) : Except String Item :=
  match default with
  | Value.none => Except.ok { default := Value.none, parser := parser }
  | d =>
      match parser d with
      | Except.ok pd => Except.ok { default := pd, parser := parser }
      | Except.error e => Except.error e

/-- The state stored by `MultiItem.__init__`: default is None or a list of
individually parsed elements. -/
structure MultiItem where
  default : Option (List Value)
  parser : ParserFn

/-- Models `MultiItem.__init__(default, help_string, parser)`: None is
stored unchanged; otherwise the default is normalized (non-string iterable
converted to a list, other single values wrapped into a one-element list)
and each element is parsed individually. -/
def MultiItem.init (default : Value) (parser : ParserFn) : Except String MultiItem :=
  match default with
  | Value.none => Except.ok { default := Option.none, parser := parser }
  | d =>
      match (normalizeToList d).mapM parser with
      | Except.ok ps => Except.ok { default := some ps, parser := parser }
      | Except.error e => Except.error e

mutual
/-- One node of the definition tree passed to `DEFINE_dict`/`define_flags`:
an `Item`, a `MultiItem`, a nested dict, or any other Python object
(represented by its runtime type name), which is a definition error. -/
inductive DefEntry where
  | item (it : Item)
  | multiItem (mi : MultiItem)
  | dict (es : DefEntries)
  | other (typeName : String)

/-- A Python dict of definition entries, as an ordered association list. -/
inductive DefEntries where
  | nil
  | cons (key : String) (entry : DefEntry) (rest : DefEntries)
end

/-- The keys of a definition dict, in order. -/
def keysOf : DefEntries → List String
  | DefEntries.nil => []
  | DefEntries.cons k _ rest => k :: keysOf rest

mutual
/-- A definition entry is well formed when every node is an `Item`, a
`MultiItem` or a nested dict with distinct keys (Python dict keys are
necessarily distinct). -/
def wellFormedEntry : DefEntry → Bool
  | DefEntry.item _ => true
  | DefEntry.multiItem _ => true
  | DefEntry.other _ => false
  | DefEntry.dict es => wellFormedEntries es

/-- Well-formedness of a definition dict: distinct keys, well-formed
entries. -/
def wellFormedEntries : DefEntries → Bool
  | DefEntries.nil => true
  | DefEntries.cons k e rest =>
      !(keysOf rest).contains k && wellFormedEntry e && wellFormedEntries rest
end

mutual
/-- Whether an entry contains a node that is neither a dict nor an
`Item`/`MultiItem`. -/
def hasOtherEntry : DefEntry → Bool
  | DefEntry.item _ => false
  | DefEntry.multiItem _ => false
  | DefEntry.other _ => true
  | DefEntry.dict es => hasOtherEntries es

/-- Whether a definition dict contains a malformed node. -/
def hasOtherEntries : DefEntries → Bool
  | DefEntries.nil => false
  | DefEntries.cons _ e rest => hasOtherEntry e || hasOtherEntries rest
end

mutual
/-- The runtime type names of all malformed nodes of an entry. -/
def otherTypeNamesEntry : DefEntry → List String
  | DefEntry.item _ => []
  | DefEntry.multiItem _ => []
  | DefEntry.other tn => [tn]
  | DefEntry.dict es => otherTypeNamesEntries es

/-- The runtime type names of all malformed nodes of a definition dict. -/
def otherTypeNamesEntries : DefEntries → List String
  | DefEntries.nil => []
  | DefEntries.cons _ e rest => otherTypeNamesEntry e ++ otherTypeNamesEntries rest
end

/-- The message of the TypeError raised by `_extract_defaults` (source text
uses the contraction and backquotes; reproduced here without them). -/
def extractTypeErrorMsg (typeName : String) : String :=
  "DEFINE_dict only supports flat or nested dictionaries, and these must contain ff.Items or ff.MultiItems. Found type " ++ typeName ++ " in this definition."

mutual
/-- The per-value branch of the loop body of `_extract_defaults`: an `Item`
or `MultiItem` contributes its default, a dict is handled recursively, and
anything else raises a TypeError naming the runtime type of the value. -/
def extractDefault1 : DefEntry → Except PyError Value
  | DefEntry.item it => Except.ok it.default
  | DefEntry.multiItem mi => Except.ok (multiValueToValue mi.default)
  | DefEntry.dict es =>
      match extract_defaults es with
      | Except.ok r => Except.ok (Value.dict r)
      | Except.error e => Except.error e
  | DefEntry.other tn => Except.error (PyError.typeError (extractTypeErrorMsg tn))

/-- Models `_extract_defaults(mapping)`: converts a flat or nested dict of
definition entries into a flat or nested dict of defaults, iterating the
entries in order. -/
def extract_defaults : DefEntries → Except PyError (List (String × Value))
  | DefEntries.nil => Except.ok []
  | DefEntries.cons k e rest =>
      match extractDefault1 e with
      | Except.error e1 => Except.error e1
      | Except.ok v =>
          match extract_defaults rest with
          | Except.error e2 => Except.error e2
          | Except.ok r => Except.ok ((k, v) :: r)
end

/-- Descend through a nested dict value along a path of keys. -/
def lookupPath : Value → List String → Option Value
  | v, [] => some v
  | Value.dict es, k :: rest =>
      match assocGet es k with
      | some v => lookupPath v rest
      | Option.none => Option.none
  | _, _ :: _ => Option.none

/-- Models `_ItemFlag._update_shared_dict` / `_MultiFlag._update_shared_dict`:
starting from the shared dict, descend through all but the last namespace
segment (`for name in self._namespace[:-1]: d = d[name]`), then assign the
value at the final segment (`d[self._namespace[-1]] = self.value`).
Returns `none` where the Python code would raise (KeyError on a missing
intermediate key, TypeError on indexing or assigning into a non-dict,
IndexError on an empty namespace). -/
def update_shared_dict : Value → List String → Value → Option Value
  | _, [], _ => Option.none
  | Value.dict es, [k], v => some (Value.dict (assocSet es k v))
  | Value.dict es, k :: k2 :: rest, v =>
      match assocGet es k with
      | some sub =>
          match update_shared_dict sub (k2 :: rest) v with
          | some sub2 => some (Value.dict (assocSet es k sub2))
          | Option.none => Option.none
      | Option.none => Option.none
  | _, _ :: _, _ => Option.none

/-- Instrumented variant of `update_shared_dict` that also counts the
number of intermediate-segment lookups performed (the iterations of
`for name in self._namespace[:-1]`). -/
def update_shared_dict_lookups : Value → List String → Value → Option Value × Nat
  | _, [], _ => (Option.none, 0)
  | Value.dict es, [k], v => (some (Value.dict (assocSet es k v)), 0)
  | Value.dict es, k :: k2 :: rest, v =>
      match assocGet es k with
      | some sub =>
          match update_shared_dict_lookups sub (k2 :: rest) v with
          | (some sub2, n) => (some (Value.dict (assocSet es k sub2)), n + 1)
          | (Option.none, n) => (Option.none, n + 1)
      | Option.none => (Option.none, 1)
  | _, _ :: _, _ => (Option.none, 0)

/-- The state of an `_ItemFlag`: the aliased shared dict it writes into
(here threaded explicitly), its namespace, its parser and its current
value.  `present` counts command-line parses, as in absl. -/
structure ItemFlag where
  shared_dict : Value
  nspace : List String
  parser : ParserFn
  value : Value
  present : Nat

/-- Models the `value` property setter of `_ItemFlag`: store the value,
then run `_update_shared_dict`. -/
def ItemFlag.set_value (st : ItemFlag) (v : Value) : Except PyError ItemFlag :=
  match update_shared_dict st.shared_dict st.nspace v with
  | some d2 => Except.ok { st with value := v, shared_dict := d2 }
  | Option.none => Except.error PyError.keyError

/-- The default handling of absl `Flag._set_default`: None is kept as is,
any other default is parsed. -/
def parseDefault (parser : ParserFn) (default : Value) : Except String Value :=
  match default with
  | Value.none => Except.ok Value.none
  | d => parser d

/-- Models constructing an `_ItemFlag` (absl `Flag.__init__`, which via
`_set_default` parses a non-None default and assigns it through the
overridden `value` setter, triggering the first write-through). -/
def ItemFlag.init (shared_dict : Value) (nspace : List String) (parser : ParserFn)
    (default : Value) : Except PyError ItemFlag :=
  match parseDefault parser default with
  | Except.ok pd =>
      ItemFlag.set_value
        { shared_dict := shared_dict, nspace := nspace, parser := parser,
          value := pd, present := 0 } pd
  | Except.error e => Except.error (PyError.illegalFlagValue e)

/-- Models `_ItemFlag.parse`: absl `Flag.parse` parses the argument and
assigns it through the (overridden) `value` setter, then increments
`present`; the subsequent explicit `_update_shared_dict()` call repeats an
update that already happened and is a no-op on the state. -/
def ItemFlag.parse (st : ItemFlag) (argument : Value) : Except PyError ItemFlag :=
  match st.parser argument with
  | Except.ok v =>
      match ItemFlag.set_value st v with
      | Except.ok st2 => Except.ok { st2 with present := st2.present + 1 }
      | Except.error e => Except.error e
  | Except.error e => Except.error (PyError.illegalFlagValue e)

/-- The state of a `_MultiFlag`: its value is None or the accumulated list
of parsed occurrences. -/
structure MultiFlag where
  shared_dict : Value
  nspace : List String
  parser : ParserFn
  value : Option (List Value)
  present : Nat

/-- Models the `value` property setter of `_MultiFlag`. -/
def MultiFlag.set_value (st : MultiFlag) (v : Option (List Value)) :
    Except PyError MultiFlag :=
  match update_shared_dict st.shared_dict st.nspace (multiValueToValue v) with
  | some d2 => Except.ok { st with value := v, shared_dict := d2 }
  | Option.none => Except.error PyError.keyError

/-- Models constructing a `_MultiFlag`: a None default is assigned as is,
a list default is run through `MultiFlag._parse` (normalize, then parse
each element) and the result assigned through the setter. -/
def MultiFlag.init (shared_dict : Value) (nspace : List String) (parser : ParserFn)
    (default : Option (List Value)) : Except PyError MultiFlag :=
  match default with
  | Option.none =>
      MultiFlag.set_value
        { shared_dict := shared_dict, nspace := nspace, parser := parser,
          value := Option.none, present := 0 } Option.none
  | some xs =>
      match (normalizeToList (Value.vlist xs)).mapM parser with
      | Except.ok ps =>
          MultiFlag.set_value
            { shared_dict := shared_dict, nspace := nspace, parser := parser,
              value := some ps, present := 0 } (some ps)
      | Except.error e => Except.error (PyError.illegalFlagValue e)

/-- Models `_MultiFlag.parse`: absl `MultiFlag.parse` normalizes the
argument into a list, parses each element, extends the current value when
occurrences were already present (else assigns), and bumps `present` by
the number of new values; the `_MultiFlag` override then runs
`_update_shared_dict`, so the shared dict receives the accumulated list. -/
def MultiFlag.parse (st : MultiFlag) (arguments : Value) : Except PyError MultiFlag :=
  match (normalizeToList arguments).mapM st.parser with
  | Except.error e => Except.error (PyError.illegalFlagValue e)
  | Except.ok new_values =>
      let newList := if st.present = 0 then new_values else st.value.getD [] ++ new_values
      match MultiFlag.set_value st (some newList) with
      | Except.ok st2 => Except.ok { st2 with present := st2.present + new_values.length }
      | Except.error e => Except.error e

/-- A leaf descriptor of the definition tree. -/
inductive Leaf where
  | item (it : Item)
  | multi (mi : MultiItem)

/-- The default value a leaf contributes to the shared dict. -/
def Leaf.defaultValue : Leaf → Value
  | Leaf.item it => it.default
  | Leaf.multi mi => multiValueToValue mi.default

/-- The parser of a leaf is idempotent on the stored default.  Every absl
parser used by the library (`ArgumentParser`, `IntegerParser`, ...) maps an
already parsed value to itself, and `Item.__init__` stores parsed
defaults, so this holds for every descriptor the library can build. -/
def Leaf.Idem : Leaf → Prop
  | Leaf.item it => it.default = Value.none ∨ it.parser it.default = Except.ok it.default
  | Leaf.multi mi =>
      mi.default = Option.none ∨
        ∃ xs, mi.default = some xs ∧ xs.mapM mi.parser = Except.ok xs

mutual
/-- Models the walk of `define_flags.recursively_define_flags`: collect
every leaf together with the namespace it is defined under, in document
order.  (The source defines each flag during the walk; here the walk
collects the leaves and `defineFlagsAux` below performs the definitions in
the same order.) -/
def collectLeaves (ns : List String) : DefEntry → List (List String × Leaf)
  | DefEntry.item it => [(ns, Leaf.item it)]
  | DefEntry.multiItem mi => [(ns, Leaf.multi mi)]
  | DefEntry.other _ => []
  | DefEntry.dict es => collectLeavesList ns es

/-- Collect the leaves of a definition dict under a namespace prefix. -/
def collectLeavesList (ns : List String) : DefEntries → List (List String × Leaf)
  | DefEntries.nil => []
  | DefEntries.cons k e rest => collectLeaves (ns ++ [k]) e ++ collectLeavesList ns rest
end

/-- Define the collected leaf flags one after another; each construction
(`Item.define` / `MultiItem.define` building an `_ItemFlag`/`_MultiFlag`)
writes its parsed default through into the shared wrapper dict. -/
def defineFlagsAux : Value → List (List String × Leaf) → Except PyError Value
  | wrapper, [] => Except.ok wrapper
  | wrapper, (ns, Leaf.item it) :: rest =>
      match ItemFlag.init wrapper ns it.parser it.default with
      | Except.ok st => defineFlagsAux st.shared_dict rest
      | Except.error e => Except.error e
  | wrapper, (ns, Leaf.multi mi) :: rest =>
      match MultiFlag.init wrapper ns mi.parser mi.default with
      | Except.ok st => defineFlagsAux st.shared_dict rest
      | Except.error e => Except.error e

/-- Models `define_flags(name, deferred_flags)`: build the shared dict of
defaults with `_extract_defaults`, then walk the definition tree defining
one dot-named flag per leaf; every leaf flag closes over the wrapper dict
`{name: shared_dict}` and namespaces start with `name`.  Returns the (live)
shared dict, read back out of the wrapper after the definitions ran. -/
def define_flags (name : String) (deferred_flags : DefEntries) : Except PyError Value :=
  match extract_defaults deferred_flags with
  | Except.error e => Except.error e
  | Except.ok r =>
      match defineFlagsAux (Value.dict [(name, Value.dict r)])
              (collectLeavesList [name] deferred_flags) with
      | Except.error e => Except.error e
      | Except.ok wrapper =>
          match wrapper with
          | Value.dict es =>
              match assocGet es name with
              | some s => Except.ok s
              | Option.none => Except.error PyError.keyError
          | _ => Except.error PyError.keyError

/-- The argument handed to `_DictFlag._parse`: either the very shared dict
object held by the flag (the Python identity test `value is
self._shared_dict`, used when the flag parses its own default), or any
other value. -/
inductive DictParseArg where
  | sharedRef
  | value (v : Value)

/-- The message of the IllegalFlagValueError raised by `_DictFlag._parse`
(source text uses the contraction and backquotes; reproduced here without
them). -/
def dictFlagErrMsg : String :=
  "Cannot override a dict flag directly. Did you mean to override one of its Items instead?"

/-- Models `_DictFlag._parse`: the shared dict itself (identity) and the
empty-string sentinel both return the existing shared dict unchanged;
every other value raises IllegalFlagValueError. -/
def DictFlag.parseArg (shared_dict : Value) : DictParseArg → Except PyError Value
  | DictParseArg.sharedRef => Except.ok shared_dict
  | DictParseArg.value v =>
      if eqEmptyStr v then Except.ok shared_dict
      else Except.error (PyError.illegalFlagValue dictFlagErrMsg)

/-- The message of the ValueError raised by `DEFINE_dict` when no keyword
arguments are supplied. -/
def emptyKwargsMsg : String :=
  "Please supply at least one keyword argument defining a flag."

/-- Models `DEFINE_dict(name, **kwargs)` (with the default registry): an
empty kwargs dict raises ValueError before anything is defined; otherwise
`define_flags` runs and a `_DictFlag` is registered whose default is the
shared dict (its construction parses that default, hitting the identity
branch of `_DictFlag._parse`).  The checks on the positional arguments
(name is a string, at most one extra `FlagValues` argument) are enforced
by the Lean types and are not modelled. -/
def DEFINE_dict (name : String) (kwargs : DefEntries) : Except PyError Value :=
  match kwargs with
  | DefEntries.nil => Except.error (PyError.valueError emptyKwargsMsg)
  | _ =>
      match define_flags name kwargs with
      | Except.error e => Except.error e
      | Except.ok shared => DictFlag.parseArg shared DictParseArg.sharedRef

/-- Two paths diverge: they share a prefix and then differ. -/
def Divergent (p q : List String) : Prop :=
  ∃ pre a b s t, a ≠ b ∧ p = pre ++ a :: s ∧ q = pre ++ b :: t

/-- The write-through descent for namespace `ns` cannot fail in `d`: the
walk through all but the last segment reaches a nested dict. -/
def DescentOk (d : Value) (ns : List String) : Prop :=
  ∃ es, lookupPath d ns.dropLast = some (Value.dict es)

mutual
/-- The result of `_extract_defaults` has the same keys and nesting
structure as the definition entry, with each leaf position holding the
leaf descriptor default. -/
inductive MatchesEntry : DefEntry → Value → Prop where
  | item : ∀ it, MatchesEntry (DefEntry.item it) it.default
  | multiItem : ∀ mi, MatchesEntry (DefEntry.multiItem mi) (multiValueToValue mi.default)
  | dict : ∀ es rs, MatchesEntries es rs → MatchesEntry (DefEntry.dict es) (Value.dict rs)

/-- Key-by-key correspondence between a definition dict and a result
dict: same keys in the same order, matching entries. -/
inductive MatchesEntries : DefEntries → List (String × Value) → Prop where
  | nil : MatchesEntries DefEntries.nil []
  | cons : ∀ k e v rest rrest, MatchesEntry e v → MatchesEntries rest rrest →
      MatchesEntries (DefEntries.cons k e rest) ((k, v) :: rrest)
end

/-- The base `flags.ArgumentParser`, whose `parse` returns the argument. -/
def baseParserFn : ParserFn := fun v => Except.ok v

/-- A strict integer parser used in witnesses: accepts ints, rejects the
rest. -/
def intParserFn : ParserFn := fun v =>
  match v with
  | Value.int n => Except.ok (Value.int n)
  | _ => Except.error "not an integer"

/-- An integer parser that is not the identity, used in witnesses to show
that the parsed result (not the raw default) is stored. -/
def incParserFn : ParserFn := fun v =>
  match v with
  | Value.int n => Except.ok (Value.int (n + 1))
  | _ => Except.error "not an integer"

/-- The definition tree of the spec worked example:
mode = String("pad"), sizes = dict(width=Integer(5), height=Integer(7)). -/
def exampleTree : DefEntries :=
  DefEntries.cons "mode" (DefEntry.item { default := Value.str "pad", parser := baseParserFn })
    (DefEntries.cons "sizes"
      (DefEntry.dict
        (DefEntries.cons "width" (DefEntry.item { default := Value.int 5, parser := intParserFn })
          (DefEntries.cons "height" (DefEntry.item { default := Value.int 7, parser := intParserFn })
            DefEntries.nil)))
      DefEntries.nil)

/-- The shared dict produced for `exampleTree`. -/
def exampleShared : Value :=
  Value.dict [("mode", Value.str "pad"),
    ("sizes", Value.dict [("width", Value.int 5), ("height", Value.int 7)])]

/-- Setting a key and reading it back yields the new value. -/
theorem assocGet_assocSet_self (es : List (String × Value)) (k : String) (v : Value) :
    assocGet (assocSet es k v) k = some v := by
  induction es with
  | nil => simp [assocSet, assocGet]
  | cons hd tl ih =>
      obtain ⟨k1, v1⟩ := hd
      by_cases h : k1 = k
      · simp [assocSet, assocGet, h]
      · simp [assocSet, assocGet, h, ih]

/-- Setting a key leaves every other key unchanged. -/
theorem assocGet_assocSet_ne (es : List (String × Value)) (k k' : String) (v : Value)
    (h : k ≠ k') : assocGet (assocSet es k v) k' = assocGet es k' := by
  induction es with
  | nil => simp [assocSet, assocGet, h]
  | cons hd tl ih =>
      obtain ⟨k1, v1⟩ := hd
      by_cases h1 : k1 = k
      · subst h1
        simp [assocSet, assocGet, h]
      · by_cases h2 : k1 = k'
        · simp [assocSet, assocGet, h1, h2, Ne.symm h]
        · simp [assocSet, assocGet, h1, h2, ih]

/-- Writing back the value already stored at a key is a no-op. -/
theorem assocSet_of_assocGet_eq (es : List (String × Value)) (k : String) (v : Value)
    (h : assocGet es k = some v) : assocSet es k v = es := by
  induction es with
  | nil => simp [assocGet] at h
  | cons hd tl ih =>
      obtain ⟨k1, v1⟩ := hd
      by_cases h1 : k1 = k
      · subst h1
        simp [assocGet] at h
        simp [assocSet, h]
      · simp [assocGet, h1] at h
        simp [assocSet, h1, ih h]

/-- Unfolding of the descent step of `update_shared_dict` for a nonempty
remaining path. -/
theorem update_shared_dict_cons (es : List (String × Value)) (k : String)
    (l : List String) (v : Value) (hl : l ≠ []) :
    update_shared_dict (Value.dict es) (k :: l) v =
      match assocGet es k with
      | some sub =>
          match update_shared_dict sub l v with
          | some sub2 => some (Value.dict (assocSet es k sub2))
          | Option.none => Option.none
      | Option.none => Option.none := by
  cases l with
  | nil => exact absurd rfl hl
  | cons k2 rest => rfl

/-- After a successful write-through at `ns`, reading back along `ns`
yields the written value. -/
theorem lookupPath_update_shared_dict (ns : List String) :
    ∀ d v d', update_shared_dict d ns v = some d' → lookupPath d' ns = some v := by
  induction ns with
  | nil =>
      intro d v d' h
      simp [update_shared_dict] at h
  | cons k rest ih =>
      intro d v d' h
      cases rest with
      | nil =>
          cases d
          case dict es =>
            simp [update_shared_dict] at h
            subst h
            simp [lookupPath, assocGet_assocSet_self]
          all_goals simp [update_shared_dict] at h
      | cons k2 rest2 =>
          cases d
          case dict es =>
            cases hget : assocGet es k with
            | none => simp [update_shared_dict, hget] at h
            | some sub =>
                cases hupd : update_shared_dict sub (k2 :: rest2) v with
                | none => simp [update_shared_dict, hget, hupd] at h
                | some sub2 =>
                    simp [update_shared_dict, hget, hupd] at h
                    subst h
                    simp [lookupPath, assocGet_assocSet_self]
                    exact ih sub v sub2 hupd
          all_goals simp [update_shared_dict] at h

/-- Writing the value that is already stored at a path leaves the nested
dict unchanged. -/
theorem update_shared_dict_of_lookupPath (ns : List String) :
    ∀ d v, lookupPath d ns = some v → ns ≠ [] → update_shared_dict d ns v = some d := by
  induction ns with
  | nil => intro d v _ hne; exact absurd rfl hne
  | cons k rest ih =>
      intro d v h _
      cases d
      case dict es =>
        cases hget : assocGet es k with
        | none => simp [lookupPath, hget] at h
        | some sub =>
            have h2 : lookupPath sub rest = some v := by
              simpa [lookupPath, hget] using h
            cases rest with
            | nil =>
                have hv : sub = v := by simpa [lookupPath] using h2
                subst hv
                simp [update_shared_dict, assocSet_of_assocGet_eq es k sub hget]
            | cons k2 rest2 =>
                have hupd := ih sub v h2 (by simp)
                rw [update_shared_dict_cons es k (k2 :: rest2) v (by simp)]
                simp [hget, hupd, assocSet_of_assocGet_eq es k sub hget]
      all_goals simp [lookupPath] at h

/-- Frame property of the write-through: a successful update along a path
that diverges from `p` leaves the value reachable at `p` unchanged. -/
theorem lookupPath_update_shared_dict_frame (pre : List String) :
    ∀ a b s t d d' v, a ≠ b →
      update_shared_dict d (pre ++ a :: s) v = some d' →
      lookupPath d' (pre ++ b :: t) = lookupPath d (pre ++ b :: t) := by
  induction pre with
  | nil =>
      intro a b s t d d' v hab h
      simp only [List.nil_append] at *
      cases s with
      | nil =>
          cases d
          case dict es =>
            simp [update_shared_dict] at h
            subst h
            simp [lookupPath, assocGet_assocSet_ne es a b v hab]
          all_goals simp [update_shared_dict] at h
      | cons s1 s2 =>
          cases d
          case dict es =>
            cases hget : assocGet es a with
            | none => simp [update_shared_dict, hget] at h
            | some sub =>
                cases hupd : update_shared_dict sub (s1 :: s2) v with
                | none => simp [update_shared_dict, hget, hupd] at h
                | some sub2 =>
                    simp [update_shared_dict, hget, hupd] at h
                    subst h
                    simp [lookupPath, assocGet_assocSet_ne es a b sub2 hab]
          all_goals simp [update_shared_dict] at h
  | cons k pre' ih =>
      intro a b s t d d' v hab h
      have hne : pre' ++ a :: s ≠ [] := by simp
      obtain ⟨k2, rest, hsplit⟩ : ∃ k2 rest, pre' ++ a :: s = k2 :: rest := by
        cases pre' <;> exact ⟨_, _, rfl⟩
      rw [List.cons_append] at h
      cases d
      case dict es =>
        rw [update_shared_dict_cons es k (pre' ++ a :: s) v hne] at h
        cases hget : assocGet es k with
        | none => simp [hget] at h
        | some sub =>
            cases hupd : update_shared_dict sub (pre' ++ a :: s) v with
            | none => simp [hget, hupd] at h
            | some sub2 =>
                simp [hget, hupd] at h
                subst h
                simp [lookupPath, assocGet_assocSet_self, hget]
                exact ih a b s t sub sub2 v hab hupd
      all_goals rw [hsplit] at h
      all_goals simp [update_shared_dict] at h

/-- Splitting a lookup along a concatenated path. -/
theorem lookupPath_append (p q : List String) :
    ∀ d, lookupPath d (p ++ q) = (lookupPath d p).bind (fun w => lookupPath w q) := by
  induction p with
  | nil => intro d; simp [lookupPath]
  | cons k rest ih =>
      intro d
      cases d <;> simp [lookupPath]
      case dict es =>
        cases hget : assocGet es k with
        | none => simp
        | some sub => simp [ih]

/-- The instrumented update computes the same result as the plain one. -/
theorem update_shared_dict_lookups_fst (ns : List String) :
    ∀ d v, (update_shared_dict_lookups d ns v).1 = update_shared_dict d ns v := by
  induction ns with
  | nil => intro d v; simp [update_shared_dict_lookups, update_shared_dict]
  | cons k rest ih =>
      intro d v
      cases rest with
      | nil => cases d <;> simp [update_shared_dict_lookups, update_shared_dict]
      | cons k2 rest2 =>
          cases d
          case dict es =>
            cases hget : assocGet es k with
            | none => simp [update_shared_dict_lookups, update_shared_dict, hget]
            | some sub =>
                have hih := ih sub v
                rcases hrec : update_shared_dict_lookups sub (k2 :: rest2) v with ⟨fst, m⟩
                rw [hrec] at hih
                simp at hih
                cases fst with
                | none =>
                    simp [update_shared_dict_lookups, update_shared_dict, hget, hrec, ← hih]
                | some sub2 =>
                    simp [update_shared_dict_lookups, update_shared_dict, hget, hrec, ← hih]
          all_goals simp [update_shared_dict_lookups, update_shared_dict]

/-- On success, the write-through performs exactly one lookup per
intermediate namespace segment. -/
theorem update_shared_dict_lookups_count (ns : List String) :
    ∀ d v d2 n, update_shared_dict_lookups d ns v = (some d2, n) → n = ns.length - 1 := by
  induction ns with
  | nil => intro d v d2 n h; simp [update_shared_dict_lookups] at h
  | cons k rest ih =>
      intro d v d2 n h
      cases rest with
      | nil =>
          cases d
          case dict es =>
            simp [update_shared_dict_lookups] at h
            simp [h.2.symm]
          all_goals simp [update_shared_dict_lookups] at h
      | cons k2 rest2 =>
          cases d
          case dict es =>
            cases hget : assocGet es k with
            | none => simp [update_shared_dict_lookups, hget] at h
            | some sub =>
                rcases hrec : update_shared_dict_lookups sub (k2 :: rest2) v with ⟨fst, m⟩
                cases fst with
                | none => simp [update_shared_dict_lookups, hget, hrec] at h
                | some sub2 =>
                    simp [update_shared_dict_lookups, hget, hrec] at h
                    have hm := ih sub v sub2 m hrec
                    simp at hm
                    obtain ⟨-, hn⟩ := h
                    simp
                    omega
          all_goals simp [update_shared_dict_lookups] at h

/-- A successful update of a dict produces a dict. -/
theorem update_shared_dict_dict (l : List String) :
    ∀ es v d2, update_shared_dict (Value.dict es) l v = some d2 →
      ∃ es2, d2 = Value.dict es2 := by
  cases l with
  | nil => intro es v d2 h; simp [update_shared_dict] at h
  | cons k rest =>
      intro es v d2 h
      cases rest with
      | nil =>
          simp [update_shared_dict] at h
          exact ⟨_, h.symm⟩
      | cons k2 rest2 =>
          cases hget : assocGet es k with
          | none => simp [update_shared_dict, hget] at h
          | some sub =>
              cases hupd : update_shared_dict sub (k2 :: rest2) v with
              | none => simp [update_shared_dict, hget, hupd] at h
              | some sub2 =>
                  simp [update_shared_dict, hget, hupd] at h
                  exact ⟨_, h.symm⟩

/-- If the write-through descent reaches a nested dict, the update
succeeds (the assignment at the final segment cannot fail on a dict). -/
theorem update_shared_dict_of_descentOk (ns : List String) :
    ∀ d, ns ≠ [] → DescentOk d ns → ∀ v, ∃ d2, update_shared_dict d ns v = some d2 := by
  induction ns with
  | nil => intro d h; exact absurd rfl h
  | cons k rest ih =>
      intro d _ hdesc v
      cases rest with
      | nil =>
          obtain ⟨es, hes⟩ := hdesc
          simp [lookupPath] at hes
          subst hes
          exact ⟨Value.dict (assocSet es k v), by simp [update_shared_dict]⟩
      | cons k2 rest2 =>
          obtain ⟨es, hes⟩ := hdesc
          have hd : (k :: k2 :: rest2).dropLast = k :: (k2 :: rest2).dropLast := rfl
          rw [hd] at hes
          cases d
          case dict es0 =>
            cases hget : assocGet es0 k with
            | none => simp [lookupPath, hget] at hes
            | some sub =>
                have hsub : lookupPath sub (k2 :: rest2).dropLast = some (Value.dict es) := by
                  simpa [lookupPath, hget] using hes
                obtain ⟨d2, hd2⟩ := ih sub (by simp) ⟨es, hsub⟩ v
                refine ⟨Value.dict (assocSet es0 k d2), ?_⟩
                rw [update_shared_dict_cons es0 k (k2 :: rest2) v (by simp)]
                simp [hget, hd2]
          all_goals simp [lookupPath] at hes

/-- A successful update leaves its own descent intact. -/
theorem descentOk_update_self (ns : List String) :
    ∀ d v d2, update_shared_dict d ns v = some d2 → DescentOk d2 ns := by
  induction ns with
  | nil => intro d v d2 h; simp [update_shared_dict] at h
  | cons k rest ih =>
      intro d v d2 h
      cases rest with
      | nil =>
          cases d
          case dict es =>
            simp [update_shared_dict] at h
            subst h
            exact ⟨assocSet es k v, by simp [lookupPath]⟩
          all_goals simp [update_shared_dict] at h
      | cons k2 rest2 =>
          cases d
          case dict es =>
            cases hget : assocGet es k with
            | none => simp [update_shared_dict, hget] at h
            | some sub =>
                cases hupd : update_shared_dict sub (k2 :: rest2) v with
                | none => simp [update_shared_dict, hget, hupd] at h
                | some sub2 =>
                    simp [update_shared_dict, hget, hupd] at h
                    subst h
                    obtain ⟨es2, hes2⟩ := ih sub v sub2 hupd
                    refine ⟨es2, ?_⟩
                    have hd : (k :: k2 :: rest2).dropLast = k :: (k2 :: rest2).dropLast := rfl
                    rw [hd]
                    simpa [lookupPath, assocGet_assocSet_self] using hes2
          all_goals simp [update_shared_dict] at h

/-- An update below a prefix keeps a dict at that prefix. -/
theorem lookupPath_dict_update_prefix (pre : List String) :
    ∀ rest d v d2 es, rest ≠ [] →
      update_shared_dict d (pre ++ rest) v = some d2 →
      lookupPath d pre = some (Value.dict es) →
      ∃ es2, lookupPath d2 pre = some (Value.dict es2) := by
  induction pre with
  | nil =>
      intro rest d v d2 es _ h hlook
      simp [lookupPath] at hlook
      subst hlook
      obtain ⟨es2, hes2⟩ := update_shared_dict_dict rest es v d2 h
      exact ⟨es2, by simp [lookupPath, hes2]⟩
  | cons k pre' ih =>
      intro rest d v d2 es hrest h hlook
      have hne : pre' ++ rest ≠ [] := by
        cases pre' <;> simp [hrest]
      rw [List.cons_append] at h
      cases d
      case dict es0 =>
        cases hget : assocGet es0 k with
        | none => simp [lookupPath, hget] at hlook
        | some sub =>
            have hsub : lookupPath sub pre' = some (Value.dict es) := by
              simpa [lookupPath, hget] using hlook
            rw [update_shared_dict_cons es0 k (pre' ++ rest) v hne] at h
            cases hupd : update_shared_dict sub (pre' ++ rest) v with
            | none => simp [hget, hupd] at h
            | some sub2 =>
                simp [hget, hupd] at h
                subst h
                obtain ⟨es2, hes2⟩ := ih rest sub v sub2 es hrest hupd hsub
                exact ⟨es2, by simpa [lookupPath, assocGet_assocSet_self] using hes2⟩
      all_goals simp [lookupPath] at hlook

/-- A successful update at a leaf namespace preserves the descent of every
namespace that is equal to it or diverges from it. -/
theorem descentOk_update_preserve (ns nsu : List String) (d d2 v : Value)
    (h : update_shared_dict d nsu v = some d2)
    (hcase : ns = nsu ∨ Divergent ns nsu) (hdesc : DescentOk d ns) :
    DescentOk d2 ns := by
  rcases hcase with rfl | ⟨pre, a, b, s, t, hab, hns, hnsu⟩
  · exact descentOk_update_self ns d v d2 h
  · subst hns hnsu
    cases s with
    | nil =>
        obtain ⟨es, hes⟩ := hdesc
        have hes' : lookupPath d pre = some (Value.dict es) := by simpa using hes
        obtain ⟨es2, h2⟩ :=
          lookupPath_dict_update_prefix pre (b :: t) d v d2 es (by simp) h hes'
        exact ⟨es2, by simpa using h2⟩
    | cons s1 s2 =>
        obtain ⟨es, hes⟩ := hdesc
        have hdl : (pre ++ a :: s1 :: s2).dropLast = pre ++ a :: (s1 :: s2).dropLast := by
          rw [List.dropLast_append_of_ne_nil pre (by simp)]
          rfl
        rw [hdl] at hes
        have hfr := lookupPath_update_shared_dict_frame pre b a t ((s1 :: s2).dropLast)
          d d2 v (Ne.symm hab) h
        refine ⟨es, ?_⟩
        rw [hdl, hfr]
        exact hes

/-- Inversion of the `_ItemFlag` value setter. -/
theorem itemFlag_set_value_inv (st : ItemFlag) (v : Value) (st2 : ItemFlag)
    (h : ItemFlag.set_value st v = Except.ok st2) :
    update_shared_dict st.shared_dict st.nspace v = some st2.shared_dict ∧
      st2.value = v ∧ st2.nspace = st.nspace ∧ st2.parser = st.parser ∧
      st2.present = st.present := by
  unfold ItemFlag.set_value at h
  cases hupd : update_shared_dict st.shared_dict st.nspace v with
  | none => rw [hupd] at h; simp at h
  | some d2 =>
      rw [hupd] at h
      simp at h
      subst h
      simp

/-- Inversion of `_ItemFlag` construction. -/
theorem itemFlag_init_inv (shared : Value) (ns : List String) (parser : ParserFn)
    (default : Value) (st : ItemFlag)
    (h : ItemFlag.init shared ns parser default = Except.ok st) :
    ∃ pd, parseDefault parser default = Except.ok pd ∧
      update_shared_dict shared ns pd = some st.shared_dict ∧
      st.value = pd ∧ st.nspace = ns ∧ st.parser = parser := by
  unfold ItemFlag.init at h
  cases hp : parseDefault parser default with
  | error e => rw [hp] at h; simp at h
  | ok pd =>
      rw [hp] at h
      obtain ⟨h1, h2, h3, h4, _⟩ := itemFlag_set_value_inv _ pd st h
      exact ⟨pd, rfl, h1, h2, h3, h4⟩

/-- Inversion of the `_MultiFlag` value setter. -/
theorem multiFlag_set_value_inv (st : MultiFlag) (v : Option (List Value)) (st2 : MultiFlag)
    (h : MultiFlag.set_value st v = Except.ok st2) :
    update_shared_dict st.shared_dict st.nspace (multiValueToValue v) = some st2.shared_dict ∧
      st2.value = v ∧ st2.nspace = st.nspace ∧ st2.parser = st.parser ∧
      st2.present = st.present := by
  unfold MultiFlag.set_value at h
  cases hupd : update_shared_dict st.shared_dict st.nspace (multiValueToValue v) with
  | none => rw [hupd] at h; simp at h
  | some d2 =>
      rw [hupd] at h
      simp at h
      subst h
      simp

/-- Inversion of `_MultiFlag` construction. -/
theorem multiFlag_init_inv (shared : Value) (ns : List String) (parser : ParserFn)
    (default : Option (List Value)) (st : MultiFlag)
    (h : MultiFlag.init shared ns parser default = Except.ok st) :
    ∃ v, update_shared_dict shared ns (multiValueToValue v) = some st.shared_dict ∧
      st.value = v ∧ st.nspace = ns ∧ st.parser = parser := by
  cases default with
  | none =>
      rw [MultiFlag.init] at h
      obtain ⟨h1, h2, h3, h4, _⟩ := multiFlag_set_value_inv _ Option.none st h
      exact ⟨Option.none, h1, h2, h3, h4⟩
  | some xs =>
      cases hp : (normalizeToList (Value.vlist xs)).mapM parser with
      | error e => rw [MultiFlag.init, hp] at h; simp at h
      | ok ps =>
          rw [MultiFlag.init, hp] at h
          obtain ⟨h1, h2, h3, h4, _⟩ := multiFlag_set_value_inv _ (some ps) st h
          exact ⟨some ps, h1, h2, h3, h4⟩

mutual
/-- Every leaf collected under an entry extends the namespace prefix. -/
theorem collectLeaves_extend (ns : List String) (e : DefEntry) :
    ∀ x, x ∈ collectLeaves ns e → ∃ s, x.1 = ns ++ s := by
  cases e with
  | item it =>
      intro x hx
      simp [collectLeaves] at hx
      exact ⟨[], by simp [hx]⟩
  | multiItem mi =>
      intro x hx
      simp [collectLeaves] at hx
      exact ⟨[], by simp [hx]⟩
  | other tn => intro x hx; simp [collectLeaves] at hx
  | dict es =>
      intro x hx
      rw [collectLeaves] at hx
      obtain ⟨k, s, heq, -⟩ := collectLeavesList_extend ns es x hx
      exact ⟨k :: s, heq⟩

/-- Every leaf collected under a dict extends the prefix by one of the dict
keys. -/
theorem collectLeavesList_extend (ns : List String) (es : DefEntries) :
    ∀ x, x ∈ collectLeavesList ns es →
      ∃ k s, x.1 = ns ++ k :: s ∧ (keysOf es).contains k = true := by
  cases es with
  | nil => intro x hx; simp [collectLeavesList] at hx
  | cons k e rest =>
      intro x hx
      rw [collectLeavesList] at hx
      rcases List.mem_append.mp hx with hl | hr
      · obtain ⟨s, hs⟩ := collectLeaves_extend (ns ++ [k]) e x hl
        refine ⟨k, s, by simpa using hs, ?_⟩
        simp [keysOf]
      · obtain ⟨k2, s2, heq, hcont⟩ := collectLeavesList_extend ns rest x hr
        refine ⟨k2, s2, heq, ?_⟩
        simp [keysOf] at hcont ⊢
        exact Or.inr hcont
end

mutual
/-- Distinct leaf namespaces collected under a well-formed entry diverge. -/
theorem collectLeaves_divergent (ns : List String) (e : DefEntry)
    (hwf : wellFormedEntry e = true) :
    ∀ x y, x ∈ collectLeaves ns e → y ∈ collectLeaves ns e → x.1 ≠ y.1 →
      Divergent x.1 y.1 := by
  cases e with
  | item it =>
      intro x y hx hy hne
      simp [collectLeaves] at hx hy
      exact absurd (by rw [hx, hy]) hne
  | multiItem mi =>
      intro x y hx hy hne
      simp [collectLeaves] at hx hy
      exact absurd (by rw [hx, hy]) hne
  | other tn => intro x y hx; simp [collectLeaves] at hx
  | dict es =>
      intro x y hx hy hne
      rw [collectLeaves] at hx hy
      exact collectLeavesList_divergent ns es (by simpa [wellFormedEntry] using hwf)
        x y hx hy hne

/-- Distinct leaf namespaces collected under a well-formed dict diverge. -/
theorem collectLeavesList_divergent (ns : List String) (es : DefEntries)
    (hwf : wellFormedEntries es = true) :
    ∀ x y, x ∈ collectLeavesList ns es → y ∈ collectLeavesList ns es → x.1 ≠ y.1 →
      Divergent x.1 y.1 := by
  cases es with
  | nil => intro x y hx; simp [collectLeavesList] at hx
  | cons k e rest =>
      simp only [wellFormedEntries, Bool.and_eq_true, Bool.not_eq_true'] at hwf
      obtain ⟨⟨h1, h2⟩, h3⟩ := hwf
      intro x y hx hy hne
      rw [collectLeavesList] at hx hy
      rcases List.mem_append.mp hx with hxl | hxr <;>
        rcases List.mem_append.mp hy with hyl | hyr
      · exact collectLeaves_divergent (ns ++ [k]) e h2 x y hxl hyl hne
      · obtain ⟨sx, hsx⟩ := collectLeaves_extend (ns ++ [k]) e x hxl
        obtain ⟨ky, sy, hsy, hky⟩ := collectLeavesList_extend ns rest y hyr
        have hkky : k ≠ ky := by
          intro hk
          rw [← hk] at hky
          rw [hky] at h1
          cases h1
        exact ⟨ns, k, ky, sx, sy, hkky, by simpa using hsx, hsy⟩
      · obtain ⟨kx, sx, hsx, hkx⟩ := collectLeavesList_extend ns rest x hxr
        obtain ⟨sy, hsy⟩ := collectLeaves_extend (ns ++ [k]) e y hyl
        have hkkx : kx ≠ k := by
          intro hk
          rw [hk] at hkx
          rw [hkx] at h1
          cases h1
        exact ⟨ns, kx, k, sx, sy, hkkx, hsx, by simpa using hsy⟩
      · exact collectLeavesList_divergent ns rest h3 x y hxr hyr hne
end

mutual
/-- An entry with no malformed node extracts successfully. -/
theorem extractDefault1_ok (e : DefEntry) (h : hasOtherEntry e = false) :
    ∃ v, extractDefault1 e = Except.ok v := by
  cases e with
  | item it => exact ⟨it.default, rfl⟩
  | multiItem mi => exact ⟨multiValueToValue mi.default, rfl⟩
  | other tn => simp [hasOtherEntry] at h
  | dict es =>
      obtain ⟨r, hr⟩ := extract_defaults_ok es (by simpa [hasOtherEntry] using h)
      exact ⟨Value.dict r, by simp [extractDefault1, hr]⟩

/-- A dict with no malformed node extracts successfully. -/
theorem extract_defaults_ok (es : DefEntries) (h : hasOtherEntries es = false) :
    ∃ r, extract_defaults es = Except.ok r := by
  cases es with
  | nil => exact ⟨[], rfl⟩
  | cons k e rest =>
      simp only [hasOtherEntries, Bool.or_eq_false_iff] at h
      obtain ⟨v, hv⟩ := extractDefault1_ok e h.1
      obtain ⟨r, hr⟩ := extract_defaults_ok rest h.2
      exact ⟨(k, v) :: r, by simp [extract_defaults, hv, hr]⟩
end

mutual
/-- An entry containing a malformed node extracts to a TypeError whose
message names the runtime type of one of its malformed nodes. -/
theorem extractDefault1_typeError (e : DefEntry) (h : hasOtherEntry e = true) :
    ∃ tn, extractDefault1 e = Except.error (PyError.typeError (extractTypeErrorMsg tn)) ∧
      tn ∈ otherTypeNamesEntry e := by
  cases e with
  | item it => simp [hasOtherEntry] at h
  | multiItem mi => simp [hasOtherEntry] at h
  | other tn => exact ⟨tn, rfl, by simp [otherTypeNamesEntry]⟩
  | dict es =>
      obtain ⟨tn, htn, hmem⟩ := extract_defaults_typeError es (by simpa [hasOtherEntry] using h)
      exact ⟨tn, by simp [extractDefault1, htn], by simpa [otherTypeNamesEntry] using hmem⟩

/-- A dict containing a malformed node extracts to a TypeError naming the
runtime type of one of its malformed nodes. -/
theorem extract_defaults_typeError (es : DefEntries) (h : hasOtherEntries es = true) :
    ∃ tn, extract_defaults es = Except.error (PyError.typeError (extractTypeErrorMsg tn)) ∧
      tn ∈ otherTypeNamesEntries es := by
  cases es with
  | nil => simp [hasOtherEntries] at h
  | cons k e rest =>
      by_cases he : hasOtherEntry e = true
      · obtain ⟨tn, htn, hmem⟩ := extractDefault1_typeError e he
        refine ⟨tn, by simp [extract_defaults, htn], ?_⟩
        simp [otherTypeNamesEntries]
        exact Or.inl hmem
      · have he' : hasOtherEntry e = false := by simpa using he
        have hrest : hasOtherEntries rest = true := by
          simpa [hasOtherEntries, he'] using h
        obtain ⟨v, hv⟩ := extractDefault1_ok e he'
        obtain ⟨tn, htn, hmem⟩ := extract_defaults_typeError rest hrest
        refine ⟨tn, by simp [extract_defaults, hv, htn], ?_⟩
        simp [otherTypeNamesEntries]
        exact Or.inr hmem
end

mutual
/-- A successful extraction mirrors the keys and nesting of the entry. -/
theorem extractDefault1_matches (e : DefEntry) :
    ∀ v, extractDefault1 e = Except.ok v → MatchesEntry e v := by
  cases e with
  | item it =>
      intro v hv
      rw [extractDefault1] at hv
      simp at hv
      subst hv
      exact MatchesEntry.item it
  | multiItem mi =>
      intro v hv
      rw [extractDefault1] at hv
      simp at hv
      subst hv
      exact MatchesEntry.multiItem mi
  | other tn => intro v hv; rw [extractDefault1] at hv; simp at hv
  | dict es =>
      intro v hv
      rw [extractDefault1] at hv
      cases hr : extract_defaults es with
      | error e2 => simp [hr] at hv
      | ok r =>
          simp [hr] at hv
          subst hv
          exact MatchesEntry.dict es r (extract_defaults_matches es r hr)

/-- A successful extraction of a dict mirrors its keys and nesting. -/
theorem extract_defaults_matches (es : DefEntries) :
    ∀ r, extract_defaults es = Except.ok r → MatchesEntries es r := by
  cases es with
  | nil =>
      intro r hr
      rw [extract_defaults] at hr
      simp at hr
      subst hr
      exact MatchesEntries.nil
  | cons k e rest =>
      intro r hr
      rw [extract_defaults] at hr
      cases h1 : extractDefault1 e with
      | error e1 => simp [h1] at hr
      | ok v =>
          cases h2 : extract_defaults rest with
          | error e2 => simp [h1, h2] at hr
          | ok r2 =>
              simp [h1, h2] at hr
              subst hr
              exact MatchesEntries.cons k e v rest r2
                (extractDefault1_matches e v h1) (extract_defaults_matches rest r2 h2)
end

mutual
/-- Looking up a collected leaf suffix in the extracted defaults of a
well-formed entry yields the leaf default. -/
theorem extractDefault1_leaf_lookup (e : DefEntry) (hwf : wellFormedEntry e = true) :
    ∀ v, extractDefault1 e = Except.ok v →
      ∀ pre x, x ∈ collectLeaves pre e →
        ∃ suf, x.1 = pre ++ suf ∧ lookupPath v suf = some x.2.defaultValue := by
  cases e with
  | item it =>
      intro v hv pre x hx
      simp [collectLeaves] at hx
      rw [extractDefault1] at hv
      simp at hv
      subst hv
      exact ⟨[], by simp [hx], by simp [lookupPath, hx, Leaf.defaultValue]⟩
  | multiItem mi =>
      intro v hv pre x hx
      simp [collectLeaves] at hx
      rw [extractDefault1] at hv
      simp at hv
      subst hv
      exact ⟨[], by simp [hx], by simp [lookupPath, hx, Leaf.defaultValue]⟩
  | other tn => intro v hv pre x hx; simp [collectLeaves] at hx
  | dict es =>
      intro v hv pre x hx
      rw [extractDefault1] at hv
      cases hr : extract_defaults es with
      | error e2 => simp [hr] at hv
      | ok r =>
          simp [hr] at hv
          subst hv
          rw [collectLeaves] at hx
          exact extract_defaults_leaf_lookup es (by simpa [wellFormedEntry] using hwf)
            r hr pre x hx

/-- Looking up a collected leaf suffix in the extracted defaults of a
well-formed dict yields the leaf default. -/
theorem extract_defaults_leaf_lookup (es : DefEntries) (hwf : wellFormedEntries es = true) :
    ∀ r, extract_defaults es = Except.ok r →
      ∀ pre x, x ∈ collectLeavesList pre es →
        ∃ suf, x.1 = pre ++ suf ∧ lookupPath (Value.dict r) suf = some x.2.defaultValue := by
  cases es with
  | nil => intro r hr pre x hx; simp [collectLeavesList] at hx
  | cons k e rest =>
      simp only [wellFormedEntries, Bool.and_eq_true, Bool.not_eq_true'] at hwf
      obtain ⟨⟨h1, h2⟩, h3⟩ := hwf
      intro r hr pre x hx
      rw [extract_defaults] at hr
      cases he : extractDefault1 e with
      | error e1 => simp [he] at hr
      | ok v =>
          cases hrest : extract_defaults rest with
          | error e2 => simp [he, hrest] at hr
          | ok r2 =>
              simp [he, hrest] at hr
              subst hr
              rw [collectLeavesList] at hx
              rcases List.mem_append.mp hx with hxl | hxr
              · obtain ⟨suf0, hsuf0, hlook⟩ :=
                  extractDefault1_leaf_lookup e h2 v he (pre ++ [k]) x hxl
                refine ⟨k :: suf0, by simpa using hsuf0, ?_⟩
                simp [lookupPath, assocGet]
                exact hlook
              · obtain ⟨suf, hsuf, hlook⟩ :=
                  extract_defaults_leaf_lookup rest h3 r2 hrest pre x hxr
                obtain ⟨ky, sy, hy, hky⟩ := collectLeavesList_extend pre rest x hxr
                have hsufy : suf = ky :: sy := by
                  have hpp : pre ++ suf = pre ++ ky :: sy := by rw [← hsuf, hy]
                  simpa using hpp
                subst hsufy
                have hkky : k ≠ ky := by
                  intro hk
                  rw [← hk] at hky
                  rw [hky] at h1
                  cases h1
                refine ⟨ky :: sy, hsuf, ?_⟩
                simp only [lookupPath, assocGet, if_neg hkky]
                simpa [lookupPath] using hlook
end

/-- Normalization of a list is the identity. -/
theorem normalizeToList_vlist (xs : List Value) : normalizeToList (Value.vlist xs) = xs := rfl

mutual
/-- A well-formed entry has no malformed node. -/
theorem hasOtherEntry_of_wf (e : DefEntry) (h : wellFormedEntry e = true) :
    hasOtherEntry e = false := by
  cases e with
  | item it => rfl
  | multiItem mi => rfl
  | other tn => simp [wellFormedEntry] at h
  | dict es =>
      rw [hasOtherEntry]
      exact hasOtherEntries_of_wf es (by simpa [wellFormedEntry] using h)

/-- A well-formed dict has no malformed node. -/
theorem hasOtherEntries_of_wf (es : DefEntries) (h : wellFormedEntries es = true) :
    hasOtherEntries es = false := by
  cases es with
  | nil => rfl
  | cons k e rest =>
      simp only [wellFormedEntries, Bool.and_eq_true, Bool.not_eq_true'] at h
      rw [hasOtherEntries]
      rw [hasOtherEntry_of_wf e h.1.2, hasOtherEntries_of_wf rest h.2]
      rfl
end

/-- When every pending leaf already has its (idempotent) default stored at
its namespace, defining the leaf flags writes each default back unchanged
and the wrapper dict is a fixed point of the fold. -/
theorem defineFlagsAux_fixed (leaves : List (List String × Leaf)) :
    ∀ wrapper,
      (∀ x ∈ leaves, x.1 ≠ [] ∧ Leaf.Idem x.2 ∧
        lookupPath wrapper x.1 = some x.2.defaultValue) →
      defineFlagsAux wrapper leaves = Except.ok wrapper := by
  induction leaves with
  | nil => intro wrapper _; rfl
  | cons hd tl ih =>
      obtain ⟨ns, l⟩ := hd
      intro wrapper hhyp
      obtain ⟨hne, hidem, hlook⟩ := hhyp (ns, l) (by simp)
      have hrest : ∀ x ∈ tl, x.1 ≠ [] ∧ Leaf.Idem x.2 ∧
          lookupPath wrapper x.1 = some x.2.defaultValue :=
        fun x hx => hhyp x (by simp [hx])
      cases l with
      | item it =>
          simp only [Leaf.defaultValue] at hlook
          simp only [Leaf.Idem] at hidem
          have hpd : parseDefault it.parser it.default = Except.ok it.default := by
            rcases hidem with hnone | hok
            · rw [hnone]; rfl
            · cases hdef : it.default
              case none => rfl
              all_goals (rw [hdef] at hok; simpa [parseDefault] using hok)
          have hupd := update_shared_dict_of_lookupPath ns wrapper it.default hlook hne
          have hinit : ItemFlag.init wrapper ns it.parser it.default =
              Except.ok { shared_dict := wrapper, nspace := ns, parser := it.parser,
                          value := it.default, present := 0 } := by
            rw [ItemFlag.init, hpd]
            unfold ItemFlag.set_value
            simp [hupd]
          rw [defineFlagsAux]
          simp only [hinit]
          exact ih wrapper hrest
      | multi mi =>
          simp only [Leaf.defaultValue] at hlook
          simp only [Leaf.Idem] at hidem
          rcases hmi : mi.default with _ | xs
          · rw [hmi] at hlook
            simp only [multiValueToValue] at hlook
            have hupd := update_shared_dict_of_lookupPath ns wrapper Value.none hlook hne
            have hinit : MultiFlag.init wrapper ns mi.parser Option.none =
                Except.ok { shared_dict := wrapper, nspace := ns, parser := mi.parser,
                            value := Option.none, present := 0 } := by
              rw [MultiFlag.init]
              unfold MultiFlag.set_value
              simp [multiValueToValue, hupd]
            rw [defineFlagsAux, hmi]
            simp only [hinit]
            exact ih wrapper hrest
          · have hok : xs.mapM mi.parser = Except.ok xs := by
              rcases hidem with hnone | ⟨ys, hys, hmap⟩
              · rw [hmi] at hnone; cases hnone
              · rw [hmi] at hys
                injection hys with hys
                rw [← hys] at hmap
                exact hmap
            rw [hmi] at hlook
            simp only [multiValueToValue] at hlook
            have hupd := update_shared_dict_of_lookupPath ns wrapper (Value.vlist xs) hlook hne
            have hinit : MultiFlag.init wrapper ns mi.parser (some xs) =
                Except.ok { shared_dict := wrapper, nspace := ns, parser := mi.parser,
                            value := some xs, present := 0 } := by
              rw [MultiFlag.init, normalizeToList_vlist, hok]
              unfold MultiFlag.set_value
              simp [multiValueToValue, hupd]
            rw [defineFlagsAux, hmi]
            simp only [hinit]
            exact ih wrapper hrest

/-- With well-formed input and idempotent leaf parsers, `define_flags`
returns exactly the dict built by `_extract_defaults`. -/
theorem define_flags_fixed (name : String) (deferred : DefEntries)
    (hwf : wellFormedEntries deferred = true)
    (hidem : ∀ x ∈ collectLeavesList [name] deferred, Leaf.Idem x.2) :
    ∃ r, extract_defaults deferred = Except.ok r ∧
      define_flags name deferred = Except.ok (Value.dict r) := by
  obtain ⟨r, hr⟩ := extract_defaults_ok deferred (hasOtherEntries_of_wf deferred hwf)
  have hleaf : ∀ x ∈ collectLeavesList [name] deferred,
      x.1 ≠ [] ∧ Leaf.Idem x.2 ∧
        lookupPath (Value.dict [(name, Value.dict r)]) x.1 = some x.2.defaultValue := by
    intro x hx
    obtain ⟨suf, hsuf, hlook⟩ := extract_defaults_leaf_lookup deferred hwf r hr [name] x hx
    refine ⟨by simp [hsuf], hidem x hx, ?_⟩
    rw [hsuf, lookupPath_append]
    simpa [lookupPath, assocGet] using hlook
  have hfold := defineFlagsAux_fixed (collectLeavesList [name] deferred)
    (Value.dict [(name, Value.dict r)]) hleaf
  refine ⟨r, hr, ?_⟩
  rw [define_flags, hr]
  simp only [hfold]
  simp [assocGet]

/-- Along the fold that defines the leaf flags, the descent of every leaf
namespace stays valid: each flag construction only updates at a namespace
that is equal to, or diverges from, every other leaf namespace. -/
theorem defineFlagsAux_descentOk (allNs : List (List String))
    (hdiv : ∀ p q, p ∈ allNs → q ∈ allNs → p = q ∨ Divergent p q) :
    ∀ leaves wrapper out, defineFlagsAux wrapper leaves = Except.ok out →
      (∀ x ∈ leaves, x.1 ∈ allNs) →
      (∀ p ∈ allNs, DescentOk wrapper p) →
      ∀ p ∈ allNs, DescentOk out p := by
  intro leaves
  induction leaves with
  | nil =>
      intro wrapper out h _ hall
      rw [defineFlagsAux] at h
      simp at h
      subst h
      exact hall
  | cons hd tl ih =>
      obtain ⟨ns, l⟩ := hd
      intro wrapper out h hmem hall
      cases l with
      | item it =>
          rw [defineFlagsAux] at h
          cases hinit : ItemFlag.init wrapper ns it.parser it.default with
          | error e => simp [hinit] at h
          | ok st =>
              simp only [hinit] at h
              obtain ⟨pd, -, hupd, -, -, -⟩ :=
                itemFlag_init_inv wrapper ns it.parser it.default st hinit
              have hall2 : ∀ p ∈ allNs, DescentOk st.shared_dict p := by
                intro p hp
                exact descentOk_update_preserve p ns wrapper st.shared_dict pd hupd
                  (hdiv p ns hp (hmem (ns, Leaf.item it) (by simp))) (hall p hp)
              exact ih st.shared_dict out h (fun x hx => hmem x (by simp [hx])) hall2
      | multi mi =>
          rw [defineFlagsAux] at h
          cases hinit : MultiFlag.init wrapper ns mi.parser mi.default with
          | error e => simp [hinit] at h
          | ok st =>
              simp only [hinit] at h
              obtain ⟨v0, hupd, -, -, -⟩ :=
                multiFlag_init_inv wrapper ns mi.parser mi.default st hinit
              have hall2 : ∀ p ∈ allNs, DescentOk st.shared_dict p := by
                intro p hp
                exact descentOk_update_preserve p ns wrapper st.shared_dict
                  (multiValueToValue v0) hupd
                  (hdiv p ns hp (hmem (ns, Leaf.multi mi) (by simp))) (hall p hp)
              exact ih st.shared_dict out h (fun x hx => hmem x (by simp [hx])) hall2

/-- A write-through on a single-key wrapper dict along a namespace that
starts with that key rebuilds a single-key wrapper dict. -/
theorem update_wrapper_shape (name : String) (s v d2 : Value) (l : List String)
    (h : update_shared_dict (Value.dict [(name, s)]) (name :: l) v = some d2)
    (hl : l ≠ []) :
    ∃ s2, d2 = Value.dict [(name, s2)] ∧ update_shared_dict s l v = some s2 := by
  obtain ⟨k2, rest, rfl⟩ : ∃ k2 rest, l = k2 :: rest := by
    cases l with
    | nil => exact absurd rfl hl
    | cons a b => exact ⟨a, b, rfl⟩
  cases hupd : update_shared_dict s (k2 :: rest) v with
  | none => simp [update_shared_dict, assocGet, hupd] at h
  | some s2 =>
      simp [update_shared_dict, assocGet, hupd, assocSet] at h
      exact ⟨s2, h.symm, rfl⟩

/-- The fold that defines the leaf flags preserves the single-key wrapper
shape, provided every leaf namespace starts with the wrapper key and has
at least two segments. -/
theorem defineFlagsAux_wrapper_shape (name : String) :
    ∀ leaves s out, defineFlagsAux (Value.dict [(name, s)]) leaves = Except.ok out →
      (∀ x ∈ leaves, ∃ k rest, x.1 = name :: k :: rest) →
      ∃ s2, out = Value.dict [(name, s2)] := by
  intro leaves
  induction leaves with
  | nil =>
      intro s out h _
      rw [defineFlagsAux] at h
      simp at h
      exact ⟨s, h.symm⟩
  | cons hd tl ih =>
      obtain ⟨ns, l⟩ := hd
      intro s out h hsh
      obtain ⟨k, krest, hk⟩ := hsh (ns, l) (by simp)
      cases l with
      | item it =>
          rw [defineFlagsAux] at h
          cases hinit : ItemFlag.init (Value.dict [(name, s)]) ns it.parser it.default with
          | error e => simp [hinit] at h
          | ok st =>
              simp only [hinit] at h
              obtain ⟨pd, -, hupd, -, -, -⟩ :=
                itemFlag_init_inv _ ns it.parser it.default st hinit
              have hk2 : ns = name :: k :: krest := hk
              rw [hk2] at hupd
              obtain ⟨s2, hs2, -⟩ :=
                update_wrapper_shape name s pd st.shared_dict (k :: krest) hupd (by simp)
              rw [hs2] at h
              exact ih s2 out h (fun x hx => hsh x (by simp [hx]))
      | multi mi =>
          rw [defineFlagsAux] at h
          cases hinit : MultiFlag.init (Value.dict [(name, s)]) ns mi.parser mi.default with
          | error e => simp [hinit] at h
          | ok st =>
              simp only [hinit] at h
              obtain ⟨v0, hupd, -, -, -⟩ :=
                multiFlag_init_inv _ ns mi.parser mi.default st hinit
              have hk2 : ns = name :: k :: krest := hk
              rw [hk2] at hupd
              obtain ⟨s2, hs2, -⟩ :=
                update_wrapper_shape name s (multiValueToValue v0) st.shared_dict
                  (k :: krest) hupd (by simp)
              rw [hs2] at h
              exact ih s2 out h (fun x hx => hsh x (by simp [hx]))

/-- Inversion of a successful `define_flags` run: the shared dict of
defaults was built, the leaf definitions all succeeded on the single-key
wrapper, and the returned value is the dict inside the final wrapper. -/
theorem define_flags_inv (name : String) (deferred : DefEntries) (shared : Value)
    (h : define_flags name deferred = Except.ok shared) :
    ∃ r, extract_defaults deferred = Except.ok r ∧
      defineFlagsAux (Value.dict [(name, Value.dict r)])
        (collectLeavesList [name] deferred) = Except.ok (Value.dict [(name, shared)]) := by
  cases hr : extract_defaults deferred with
  | error e => simp [define_flags, hr] at h
  | ok r =>
      cases hfold : defineFlagsAux (Value.dict [(name, Value.dict r)])
          (collectLeavesList [name] deferred) with
      | error e => simp [define_flags, hr, hfold] at h
      | ok out =>
          have hshape : ∀ x ∈ collectLeavesList [name] deferred,
              ∃ k rest, x.1 = name :: k :: rest := by
            intro x hx
            obtain ⟨k, s, heq, -⟩ := collectLeavesList_extend [name] deferred x hx
            exact ⟨k, s, by simpa using heq⟩
          obtain ⟨s2, hs2⟩ :=
            defineFlagsAux_wrapper_shape name (collectLeavesList [name] deferred)
              (Value.dict r) out hfold hshape
          subst hs2
          simp [define_flags, hr, hfold, assocGet] at h
          subst h
          exact ⟨r, rfl, hfold⟩

/-- Looking up a full path successfully means the descent through all
intermediate segments reaches nested dicts. -/
theorem descentOk_of_lookupPath (p : List String) (hne : p ≠ []) :
    ∀ d v, lookupPath d p = some v → DescentOk d p := by
  induction p with
  | nil => exact absurd rfl hne
  | cons k rest ih =>
      intro d v h
      cases rest with
      | nil =>
          cases d
          case dict es => exact ⟨es, by simp [lookupPath]⟩
          all_goals simp [lookupPath] at h
      | cons k2 r2 =>
          cases d
          case dict es =>
            cases hget : assocGet es k with
            | none => simp [lookupPath, hget] at h
            | some sub =>
                have hsub : lookupPath sub (k2 :: r2) = some v := by
                  simpa [lookupPath, hget] using h
                obtain ⟨es2, hes2⟩ := ih (by simp) sub v hsub
                refine ⟨es2, ?_⟩
                have hd : (k :: k2 :: r2).dropLast = k :: (k2 :: r2).dropLast := rfl
                rw [hd]
                simpa [lookupPath, hget] using hes2
          all_goals simp [lookupPath] at h

/-- Inversion of `_ItemFlag.parse`. -/
theorem itemFlag_parse_inv (st : ItemFlag) (a : Value) (st2 : ItemFlag)
    (h : ItemFlag.parse st a = Except.ok st2) :
    ∃ v, st.parser a = Except.ok v ∧
      update_shared_dict st.shared_dict st.nspace v = some st2.shared_dict ∧
      st2.value = v ∧ st2.nspace = st.nspace ∧ st2.parser = st.parser := by
  unfold ItemFlag.parse at h
  cases hp : st.parser a with
  | error e => simp only [hp] at h; exact nomatch h
  | ok v =>
      simp only [hp] at h
      cases hsv : ItemFlag.set_value st v with
      | error e => simp only [hsv] at h; exact nomatch h
      | ok stv =>
          simp only [hsv] at h
          simp at h
          obtain ⟨h1, h2, h3, h4, -⟩ := itemFlag_set_value_inv st v stv hsv
          subst h
          exact ⟨v, rfl, h1, h2, h3, h4⟩

/-- Inversion of `_MultiFlag.parse`. -/
theorem multiFlag_parse_inv (st : MultiFlag) (a : Value) (st2 : MultiFlag)
    (h : MultiFlag.parse st a = Except.ok st2) :
    ∃ new, (normalizeToList a).mapM st.parser = Except.ok new ∧
      st2.value = some (if st.present = 0 then new else st.value.getD [] ++ new) ∧
      update_shared_dict st.shared_dict st.nspace
        (Value.vlist (if st.present = 0 then new else st.value.getD [] ++ new)) =
        some st2.shared_dict ∧
      st2.nspace = st.nspace ∧ st2.parser = st.parser ∧
      st2.present = st.present + new.length := by
  unfold MultiFlag.parse at h
  cases hp : (normalizeToList a).mapM st.parser with
  | error e => simp only [hp] at h; exact nomatch h
  | ok new =>
      simp only [hp] at h
      cases hsv : MultiFlag.set_value st
          (some (if st.present = 0 then new else st.value.getD [] ++ new)) with
      | error e => simp only [hsv] at h; exact nomatch h
      | ok stv =>
          simp only [hsv] at h
          simp at h
          obtain ⟨h1, h2, h3, h4, h5⟩ := multiFlag_set_value_inv st _ stv hsv
          subst h
          refine ⟨new, rfl, h2, ?_, h3, h4, by rw [h5]⟩
          simpa [multiValueToValue] using h1

/-- Unfolding of `Item.__init__` for a default other than None. -/
theorem item_init_ne_none (parser : ParserFn) (d : Value) (hne : d ≠ Value.none) :
    Item.init d parser =
      match parser d with
      | Except.ok pd => Except.ok { default := pd, parser := parser }
      | Except.error e => Except.error e := by
  cases d
  case none => exact absurd rfl hne
  all_goals rfl

/-- Unfolding of `MultiItem.__init__` for a default other than None. -/
theorem Multiitem_init_ne_none (parser : ParserFn) (d : Value) (hne : d ≠ Value.none) :
    MultiItem.init d parser =
      match (normalizeToList d).mapM parser with
      | Except.ok ps => Except.ok { default := some ps, parser := parser }
      | Except.error e => Except.error e := by
  cases d
  case none => exact absurd rfl hne
  all_goals rfl

/-- C1: For every leaf flag built from an `Item` or `MultiItem`, each of
the three events that change the flag value — construction applying the
descriptor default, a command-line parse, and a direct assignment through
the value property — runs the write-through, so that descending from the
shared-mapping root through all but the last segment of the namespace and
reading at the final segment yields the current value of the flag. -/
theorem itemflag_write_through_sync :
    (∀ shared ns parser default st,
      ItemFlag.init shared ns parser default = Except.ok st →
      lookupPath st.shared_dict st.nspace = some st.value)
    ∧ (∀ st a st2, ItemFlag.parse st a = Except.ok st2 →
      lookupPath st2.shared_dict st2.nspace = some st2.value)
    ∧ (∀ st v st2, ItemFlag.set_value st v = Except.ok st2 →
      st2.value = v ∧ lookupPath st2.shared_dict st2.nspace = some v)
    ∧ (∀ shared ns parser default st,
      MultiFlag.init shared ns parser default = Except.ok st →
      lookupPath st.shared_dict st.nspace = some (multiValueToValue st.value))
    ∧ (∀ st a st2, MultiFlag.parse st a = Except.ok st2 →
      lookupPath st2.shared_dict st2.nspace = some (multiValueToValue st2.value))
    ∧ (∀ st v st2, MultiFlag.set_value st v = Except.ok st2 →
      st2.value = v ∧
        lookupPath st2.shared_dict st2.nspace = some (multiValueToValue v)) := by
  refine ⟨?_, ?_, ?_, ?_, ?_, ?_⟩
  · intro shared ns parser default st h
    obtain ⟨pd, -, hupd, hval, hns, -⟩ := itemFlag_init_inv shared ns parser default st h
    rw [hns, hval]
    exact lookupPath_update_shared_dict ns shared pd st.shared_dict hupd
  · intro st a st2 h
    obtain ⟨v, -, hupd, hval, hns, -⟩ := itemFlag_parse_inv st a st2 h
    rw [hns, hval]
    exact lookupPath_update_shared_dict st.nspace st.shared_dict v st2.shared_dict hupd
  · intro st v st2 h
    obtain ⟨hupd, hval, hns, -, -⟩ := itemFlag_set_value_inv st v st2 h
    rw [hns]
    exact ⟨hval, lookupPath_update_shared_dict st.nspace st.shared_dict v st2.shared_dict hupd⟩
  · intro shared ns parser default st h
    obtain ⟨v0, hupd, hval, hns, -⟩ := multiFlag_init_inv shared ns parser default st h
    rw [hns, hval]
    exact lookupPath_update_shared_dict ns shared (multiValueToValue v0) st.shared_dict hupd
  · intro st a st2 h
    obtain ⟨new, -, hval, hupd, hns, -, -⟩ := multiFlag_parse_inv st a st2 h
    rw [hns, hval]
    simpa [multiValueToValue] using
      lookupPath_update_shared_dict st.nspace st.shared_dict _ st2.shared_dict hupd
  · intro st v st2 h
    obtain ⟨hupd, hval, hns, -, -⟩ := multiFlag_set_value_inv st v st2 h
    rw [hns]
    exact ⟨hval, lookupPath_update_shared_dict st.nspace st.shared_dict
      (multiValueToValue v) st2.shared_dict hupd⟩

/-- Witness for C1: constructing a leaf flag with default 7 under
namespace cfg.a writes 7 through into the shared dict. -/
theorem itemflag_write_through_sync_witness :
    lookupPath (Value.dict [("cfg", Value.dict [("a", Value.int 7)])]) ["cfg", "a"] =
      some (Value.int 7) := by
  have h := itemflag_write_through_sync.1
    (Value.dict [("cfg", Value.dict [("a", Value.int 1)])]) ["cfg", "a"] intParserFn
    (Value.int 7)
    { shared_dict := Value.dict [("cfg", Value.dict [("a", Value.int 7)])],
      nspace := ["cfg", "a"], parser := intParserFn, value := Value.int 7, present := 0 }
    rfl
  exact h

/-- C2: the aggregate dict flag accepts only the shared dict itself or the
empty-string sentinel (both returning the existing shared dict unchanged)
and rejects every other override value with an IllegalFlagValueError whose
message suggests overriding a leaf Item instead. -/
theorem dict_flag_parse_rejects_direct_override :
    (∀ shared, DictFlag.parseArg shared DictParseArg.sharedRef = Except.ok shared)
    ∧ (∀ shared, DictFlag.parseArg shared (DictParseArg.value (Value.str "")) =
        Except.ok shared)
    ∧ (∀ shared v, v ≠ Value.str "" →
        DictFlag.parseArg shared (DictParseArg.value v) =
          Except.error (PyError.illegalFlagValue dictFlagErrMsg))
    ∧ dictFlagErrMsg =
        "Cannot override a dict flag directly. Did you mean to override one of its Items instead?" := by
  refine ⟨fun shared => rfl, fun shared => rfl, ?_, rfl⟩
  intro shared v hv
  have hb : eqEmptyStr v = false := by
    cases v
    case str s =>
      by_cases hs : s = ""
      · subst hs; exact absurd rfl hv
      · simp [eqEmptyStr, hs]
    all_goals rfl
  simp [DictFlag.parseArg, hb]

/-- Witness for C2: overriding the dict flag with the integer 3 raises. -/
theorem dict_flag_parse_rejects_direct_override_witness :
    DictFlag.parseArg (Value.dict []) (DictParseArg.value (Value.int 3)) =
      Except.error (PyError.illegalFlagValue dictFlagErrMsg) :=
  dict_flag_parse_rejects_direct_override.2.2.1 (Value.dict []) (Value.int 3)
    (fun h => nomatch h)

/-- C3: for a well-formed definition tree (with the leaf parsers
idempotent on their stored defaults, as every parser shipped with the
library is), `define_flags` returns a dict with exactly the keys and
nesting of the definition tree, holding each leaf descriptor default at
the leaf position, before any override. -/
theorem define_flags_shape_and_defaults (name : String) (deferred : DefEntries)
    (hwf : wellFormedEntries deferred = true)
    (hidem : ∀ x ∈ collectLeavesList [name] deferred, Leaf.Idem x.2) :
    ∃ r, define_flags name deferred = Except.ok (Value.dict r) ∧
      MatchesEntries deferred r ∧
      ∀ x ∈ collectLeavesList [name] deferred,
        ∃ suf, x.1 = name :: suf ∧ lookupPath (Value.dict r) suf = some x.2.defaultValue := by
  obtain ⟨r, hr, hdef⟩ := define_flags_fixed name deferred hwf hidem
  refine ⟨r, hdef, extract_defaults_matches deferred r hr, ?_⟩
  intro x hx
  obtain ⟨suf, hsuf, hlook⟩ := extract_defaults_leaf_lookup deferred hwf r hr [name] x hx
  exact ⟨suf, by simpa using hsuf, hlook⟩

/-- Witness for C3 on the spec worked example. -/
theorem define_flags_shape_and_defaults_witness :
    ∃ r, define_flags "image_settings" exampleTree = Except.ok (Value.dict r) ∧
      MatchesEntries exampleTree r ∧
      ∀ x ∈ collectLeavesList ["image_settings"] exampleTree,
        ∃ suf, x.1 = "image_settings" :: suf ∧
          lookupPath (Value.dict r) suf = some x.2.defaultValue := by
  apply define_flags_shape_and_defaults
  · rfl
  · intro x hx
    simp [exampleTree, collectLeavesList, collectLeaves] at hx
    rcases hx with h | h | h <;>
      (subst h; simp [Leaf.Idem, baseParserFn, intParserFn])

/-- C4: overriding a leaf via its dotted command-line name (a parse on its
`_ItemFlag`) assigns the parsed value at exactly that leaf namespace in the
shared mapping and leaves the value reachable at every other leaf
namespace of the same definition tree unchanged. -/
theorem leaf_override_frame (name : String) (deferred : DefEntries)
    (st : ItemFlag) (a : Value) (st2 : ItemFlag) (l l2 : Leaf) (p : List String)
    (hwf : wellFormedEntries deferred = true)
    (hx : (st.nspace, l) ∈ collectLeavesList [name] deferred)
    (hy : (p, l2) ∈ collectLeavesList [name] deferred)
    (hne : p ≠ st.nspace)
    (hparse : ItemFlag.parse st a = Except.ok st2) :
    lookupPath st2.shared_dict st.nspace = some st2.value ∧
      lookupPath st2.shared_dict p = lookupPath st.shared_dict p := by
  obtain ⟨v, -, hupd, hval, hns, -⟩ := itemFlag_parse_inv st a st2 hparse
  constructor
  · rw [hval]
    exact lookupPath_update_shared_dict st.nspace st.shared_dict v st2.shared_dict hupd
  · obtain ⟨pre, a0, b0, s0, t0, hab, hp, hnsu⟩ :=
      collectLeavesList_divergent [name] deferred hwf (p, l2) (st.nspace, l) hy hx hne
    have hp2 : p = pre ++ a0 :: s0 := hp
    have hnsu2 : st.nspace = pre ++ b0 :: t0 := hnsu
    rw [hnsu2] at hupd
    have hfr := lookupPath_update_shared_dict_frame pre b0 a0 t0 s0
      st.shared_dict st2.shared_dict v (Ne.symm hab) hupd
    rw [hp2]
    exact hfr

/-- Witness for C4: overriding height to 10 in the worked example updates
the height entry and leaves the width entry untouched. -/
theorem leaf_override_frame_witness :
    lookupPath
        (Value.dict [("image_settings",
          Value.dict [("mode", Value.str "pad"),
            ("sizes", Value.dict [("width", Value.int 5), ("height", Value.int 10)])])])
        ["image_settings", "sizes", "height"] = some (Value.int 10) ∧
      lookupPath
          (Value.dict [("image_settings",
            Value.dict [("mode", Value.str "pad"),
              ("sizes", Value.dict [("width", Value.int 5), ("height", Value.int 10)])])])
          ["image_settings", "sizes", "width"] =
        lookupPath (Value.dict [("image_settings", exampleShared)])
          ["image_settings", "sizes", "width"] := by
  have h := leaf_override_frame "image_settings" exampleTree
    { shared_dict := Value.dict [("image_settings", exampleShared)],
      nspace := ["image_settings", "sizes", "height"], parser := intParserFn,
      value := Value.int 7, present := 0 }
    (Value.int 10)
    { shared_dict := Value.dict [("image_settings",
        Value.dict [("mode", Value.str "pad"),
          ("sizes", Value.dict [("width", Value.int 5), ("height", Value.int 10)])])],
      nspace := ["image_settings", "sizes", "height"], parser := intParserFn,
      value := Value.int 10, present := 1 }
    (Leaf.item { default := Value.int 7, parser := intParserFn })
    (Leaf.item { default := Value.int 5, parser := intParserFn })
    ["image_settings", "sizes", "width"]
    rfl
    (by simp [exampleTree, collectLeavesList, collectLeaves])
    (by simp [exampleTree, collectLeavesList, collectLeaves])
    (by simp)
    rfl
  exact h

/-- C5: parsing a single-valued leaf twice keeps only the last value at
its namespace (last-write-wins), while a repeatable leaf accumulates the
parsed occurrences in order into one list stored at its namespace. -/
theorem last_write_wins_and_multi_accumulates :
    (∀ (st : ItemFlag) a1 a2 st1 st2 w,
      ItemFlag.parse st a1 = Except.ok st1 → ItemFlag.parse st1 a2 = Except.ok st2 →
      st.parser a2 = Except.ok w →
      st2.value = w ∧ lookupPath st2.shared_dict st.nspace = some w)
    ∧ (∀ (st : MultiFlag) a1 a2 st1 st2 p1 p2,
      st.present = 0 →
      MultiFlag.parse st a1 = Except.ok st1 → MultiFlag.parse st1 a2 = Except.ok st2 →
      (normalizeToList a1).mapM st.parser = Except.ok p1 →
      (normalizeToList a2).mapM st.parser = Except.ok p2 →
      st2.value = some (p1 ++ p2) ∧
        lookupPath st2.shared_dict st.nspace = some (Value.vlist (p1 ++ p2))) := by
  constructor
  · intro st a1 a2 st1 st2 w h1 h2 hw
    obtain ⟨v1, -, -, -, hns1, hparser1⟩ := itemFlag_parse_inv st a1 st1 h1
    obtain ⟨v2, hv2, hupd2, hval2, hns2, -⟩ := itemFlag_parse_inv st1 a2 st2 h2
    rw [hparser1, hw] at hv2
    injection hv2 with hv2
    subst hv2
    refine ⟨hval2, ?_⟩
    rw [← hns1]
    exact lookupPath_update_shared_dict st1.nspace st1.shared_dict w st2.shared_dict hupd2
  · intro st a1 a2 st1 st2 p1 p2 hpres h1 h2 hp1 hp2
    obtain ⟨n1, hn1, hval1, hupd1, hns1, hparser1, hpres1⟩ := multiFlag_parse_inv st a1 st1 h1
    obtain ⟨n2, hn2, hval2, hupd2, hns2, -, -⟩ := multiFlag_parse_inv st1 a2 st2 h2
    rw [hp1] at hn1
    injection hn1 with hn1
    subst hn1
    rw [hparser1, hp2] at hn2
    injection hn2 with hn2
    subst hn2
    rw [hpres] at hval1 hupd1 hpres1
    simp at hval1 hupd1
    have hacc : (if st1.present = 0 then p2 else st1.value.getD [] ++ p2) = p1 ++ p2 := by
      by_cases hz : st1.present = 0
      · have hlen : p1.length = 0 := by omega
        have hp1nil : p1 = [] := List.length_eq_zero.mp hlen
        simp [hz, hp1nil]
      · simp [hz, hval1]
    rw [hacc] at hval2 hupd2
    refine ⟨hval2, ?_⟩
    rw [← hns1]
    exact lookupPath_update_shared_dict st1.nspace st1.shared_dict
      (Value.vlist (p1 ++ p2)) st2.shared_dict hupd2

/-- Witness for C5: parsing 10 then 12 on an item flag leaves only 12 at
its namespace; parsing 1 then 2 on a multi flag stores the list 1, 2. -/
theorem last_write_wins_and_multi_accumulates_witness :
    (Value.int 12 = Value.int 12 ∧
      lookupPath (Value.dict [("cfg", Value.dict [("a", Value.int 12)])]) ["cfg", "a"] =
        some (Value.int 12)) ∧
    (some [Value.int 1, Value.int 2] = some ([Value.int 1] ++ [Value.int 2]) ∧
      lookupPath
          (Value.dict [("cfg", Value.dict [("m", Value.vlist [Value.int 1, Value.int 2])])])
          ["cfg", "m"] = some (Value.vlist ([Value.int 1] ++ [Value.int 2]))) :=
  ⟨last_write_wins_and_multi_accumulates.1
      { shared_dict := Value.dict [("cfg", Value.dict [("a", Value.int 7)])],
        nspace := ["cfg", "a"], parser := intParserFn, value := Value.int 7, present := 0 }
      (Value.int 10) (Value.int 12)
      { shared_dict := Value.dict [("cfg", Value.dict [("a", Value.int 10)])],
        nspace := ["cfg", "a"], parser := intParserFn, value := Value.int 10, present := 1 }
      { shared_dict := Value.dict [("cfg", Value.dict [("a", Value.int 12)])],
        nspace := ["cfg", "a"], parser := intParserFn, value := Value.int 12, present := 2 }
      (Value.int 12) rfl rfl rfl,
   last_write_wins_and_multi_accumulates.2
      { shared_dict := Value.dict [("cfg", Value.dict [("m", Value.none)])],
        nspace := ["cfg", "m"], parser := intParserFn, value := Option.none, present := 0 }
      (Value.int 1) (Value.int 2)
      { shared_dict := Value.dict [("cfg", Value.dict [("m", Value.vlist [Value.int 1])])],
        nspace := ["cfg", "m"], parser := intParserFn, value := some [Value.int 1],
        present := 1 }
      { shared_dict := Value.dict [("cfg", Value.dict [("m",
          Value.vlist [Value.int 1, Value.int 2])])],
        nspace := ["cfg", "m"], parser := intParserFn,
        value := some [Value.int 1, Value.int 2], present := 2 }
      [Value.int 1] [Value.int 2] rfl rfl rfl rfl rfl⟩

/-- C6 counterexample: DEFINE_dict accepts a non-empty definition whose
only entry is a leafless nested container, so a definition with zero leaf
descriptors does not always raise a definition-time error. -/
theorem DEFINE_dict_accepts_leafless_nested :
    DEFINE_dict "root" (DefEntries.cons "sub" (DefEntry.dict DefEntries.nil) DefEntries.nil) =
      Except.ok (Value.dict [("sub", Value.dict [])]) := rfl

/-- C6 amended: DEFINE_dict raises ValueError exactly for an empty keyword
mapping; a non-empty mapping whose containers hold no leaf descriptor is
accepted without error. -/
theorem DEFINE_dict_empty_kwargs_error :
    (∀ name, DEFINE_dict name DefEntries.nil =
        Except.error (PyError.valueError emptyKwargsMsg))
    ∧ DEFINE_dict "root"
        (DefEntries.cons "sub" (DefEntry.dict DefEntries.nil) DefEntries.nil) =
      Except.ok (Value.dict [("sub", Value.dict [])]) :=
  ⟨fun _ => rfl, rfl⟩

/-- C7: when any node of the definition tree is neither a dict nor an
Item/MultiItem, `_extract_defaults` raises a TypeError whose message
reports the runtime type name of such a node. -/
theorem extract_defaults_reports_bad_type (es : DefEntries)
    (h : hasOtherEntries es = true) :
    ∃ tn, extract_defaults es = Except.error (PyError.typeError (extractTypeErrorMsg tn)) ∧
      tn ∈ otherTypeNamesEntries es :=
  extract_defaults_typeError es h

/-- Witness for C7 on a tree with a stray node of type list. -/
theorem extract_defaults_reports_bad_type_witness :
    ∃ tn, extract_defaults
        (DefEntries.cons "a" (DefEntry.item { default := Value.int 1, parser := intParserFn })
          (DefEntries.cons "b" (DefEntry.other "list") DefEntries.nil)) =
        Except.error (PyError.typeError (extractTypeErrorMsg tn)) ∧
      tn ∈ otherTypeNamesEntries
        (DefEntries.cons "a" (DefEntry.item { default := Value.int 1, parser := intParserFn })
          (DefEntries.cons "b" (DefEntry.other "list") DefEntries.nil)) :=
  extract_defaults_reports_bad_type _ rfl

/-- C8: `Item.__init__` parses a non-None default with the parser of the
descriptor at construction time and stores the parsed result, so a
failing default raises at definition time; a None default is stored
unchanged and, whatever the parser, the parser is not consulted. -/
theorem item_init_parses_default :
    (∀ parser, Item.init Value.none parser =
        Except.ok { default := Value.none, parser := parser })
    ∧ (∀ parser d pd, d ≠ Value.none → parser d = Except.ok pd →
        Item.init d parser = Except.ok { default := pd, parser := parser })
    ∧ (∀ parser d e, d ≠ Value.none → parser d = Except.error e →
        Item.init d parser = Except.error e) := by
  refine ⟨fun parser => rfl, ?_, ?_⟩
  · intro parser d pd hne hp
    rw [item_init_ne_none parser d hne, hp]
  · intro parser d e hne hp
    rw [item_init_ne_none parser d hne, hp]

/-- Witness for C8: a parser that increments stores the parsed result 4
for raw default 3, and a non-integer default raises at construction. -/
theorem item_init_parses_default_witness :
    Item.init (Value.int 3) incParserFn =
        Except.ok { default := Value.int 4, parser := incParserFn } ∧
      Item.init (Value.str "x") incParserFn = Except.error "not an integer" :=
  ⟨item_init_parses_default.2.1 incParserFn (Value.int 3) (Value.int 4)
      (fun h => nomatch h) rfl,
   item_init_parses_default.2.2 incParserFn (Value.str "x") "not an integer"
      (fun h => nomatch h) rfl⟩

/-- C9: for every leaf flag registered by a successful `define_flags` run,
the write-through descent on the live wrapper dict cannot fail: the update
succeeds for any value, and the successful update performs exactly one
lookup per intermediate namespace segment. -/
theorem leaf_descent_never_fails (name : String) (deferred : DefEntries)
    (shared : Value) (ns : List String) (l : Leaf) (v : Value)
    (hwf : wellFormedEntries deferred = true)
    (hdef : define_flags name deferred = Except.ok shared)
    (hleaf : (ns, l) ∈ collectLeavesList [name] deferred) :
    ∃ d2, update_shared_dict (Value.dict [(name, shared)]) ns v = some d2 ∧
      update_shared_dict_lookups (Value.dict [(name, shared)]) ns v =
        (some d2, ns.length - 1) := by
  obtain ⟨r, hr, hfold⟩ := define_flags_inv name deferred shared hdef
  have hdiv : ∀ p q, p ∈ (collectLeavesList [name] deferred).map Prod.fst →
      q ∈ (collectLeavesList [name] deferred).map Prod.fst → p = q ∨ Divergent p q := by
    intro p q hp hq
    obtain ⟨x, hx, hxp⟩ := List.mem_map.mp hp
    obtain ⟨y, hy, hyq⟩ := List.mem_map.mp hq
    by_cases hpq : p = q
    · exact Or.inl hpq
    · subst hxp hyq
      exact Or.inr (collectLeavesList_divergent [name] deferred hwf x y hx hy hpq)
  have hinit : ∀ p ∈ (collectLeavesList [name] deferred).map Prod.fst,
      DescentOk (Value.dict [(name, Value.dict r)]) p := by
    intro p hp
    obtain ⟨x, hx, hxp⟩ := List.mem_map.mp hp
    obtain ⟨suf, hsuf, hlook⟩ := extract_defaults_leaf_lookup deferred hwf r hr [name] x hx
    have hfull : lookupPath (Value.dict [(name, Value.dict r)]) x.1 =
        some x.2.defaultValue := by
      rw [hsuf, lookupPath_append]
      simpa [lookupPath, assocGet] using hlook
    subst hxp
    exact descentOk_of_lookupPath x.1 (by simp [hsuf]) _ _ hfull
  have hout := defineFlagsAux_descentOk ((collectLeavesList [name] deferred).map Prod.fst)
    hdiv (collectLeavesList [name] deferred)
    (Value.dict [(name, Value.dict r)]) (Value.dict [(name, shared)]) hfold
    (fun x hx => List.mem_map_of_mem Prod.fst hx) hinit
  have hns : ns ∈ (collectLeavesList [name] deferred).map Prod.fst :=
    List.mem_map_of_mem Prod.fst hleaf
  have hdesc := hout ns hns
  have hnsne : ns ≠ [] := by
    obtain ⟨k, s, heq, -⟩ := collectLeavesList_extend [name] deferred (ns, l) hleaf
    have heq2 : ns = name :: k :: s := by simpa using heq
    simp [heq2]
  obtain ⟨d2, hd2⟩ :=
    update_shared_dict_of_descentOk ns (Value.dict [(name, shared)]) hnsne hdesc v
  refine ⟨d2, hd2, ?_⟩
  rcases hlu : update_shared_dict_lookups (Value.dict [(name, shared)]) ns v with ⟨fst, n⟩
  have hfst : fst = some d2 := by
    have hh := update_shared_dict_lookups_fst ns (Value.dict [(name, shared)]) v
    rw [hlu] at hh
    simpa [hd2] using hh
  subst hfst
  have hn := update_shared_dict_lookups_count ns (Value.dict [(name, shared)]) v d2 n hlu
  rw [hn]

/-- Witness for C9: the height leaf of the worked example. -/
theorem leaf_descent_never_fails_witness :
    ∃ d2, update_shared_dict (Value.dict [("image_settings", exampleShared)])
        ["image_settings", "sizes", "height"] (Value.int 10) = some d2 ∧
      update_shared_dict_lookups (Value.dict [("image_settings", exampleShared)])
        ["image_settings", "sizes", "height"] (Value.int 10) =
        (some d2, ["image_settings", "sizes", "height"].length - 1) :=
  leaf_descent_never_fails "image_settings" exampleTree exampleShared
    ["image_settings", "sizes", "height"]
    (Leaf.item { default := Value.int 7, parser := intParserFn }) (Value.int 10)
    rfl rfl (by simp [exampleTree, collectLeavesList, collectLeaves])

/-- C10: `MultiItem.__init__` normalizes a non-None default (a non-string
iterable becomes a list of its elements, any other single value is wrapped
into a one-element list), parses each element individually, and always
stores either None or the list of parsed elements. -/
theorem multi_item_default_normalization :
    (∀ parser, MultiItem.init Value.none parser =
        Except.ok { default := Option.none, parser := parser })
    ∧ (∀ xs, normalizeToList (Value.vlist xs) = xs)
    ∧ (∀ xs, normalizeToList (Value.tuple xs) = xs)
    ∧ (∀ s, normalizeToList (Value.str s) = [Value.str s])
    ∧ (∀ n : Int, normalizeToList (Value.int n) = [Value.int n])
    ∧ (∀ parser d mi, d ≠ Value.none → MultiItem.init d parser = Except.ok mi →
        ∃ ps, (normalizeToList d).mapM parser = Except.ok ps ∧ mi.default = some ps) := by
  refine ⟨fun parser => rfl, fun xs => rfl, fun xs => rfl, fun s => rfl, fun n => rfl, ?_⟩
  intro parser d mi hne hinit
  rw [Multiitem_init_ne_none parser d hne] at hinit
  cases hp : (normalizeToList d).mapM parser with
  | error e => simp only [hp] at hinit; exact nomatch hinit
  | ok ps =>
      simp only [hp] at hinit
      refine ⟨ps, rfl, ?_⟩
      have hmi : { default := some ps, parser := parser } = mi := by
        injection hinit
      rw [← hmi]

/-- Witness for C10: a tuple default (1, 2) is normalized to a list and
each element parsed (incremented) before being stored. -/
theorem multi_item_default_normalization_witness :
    ∃ ps, (normalizeToList (Value.tuple [Value.int 1, Value.int 2])).mapM incParserFn =
        Except.ok ps ∧
      ({ default := some [Value.int 2, Value.int 3], parser := incParserFn } :
        MultiItem).default = some ps :=
  multi_item_default_normalization.2.2.2.2.2 incParserFn
    (Value.tuple [Value.int 1, Value.int 2])
    { default := some [Value.int 2, Value.int 3], parser := incParserFn }
    (fun h => nomatch h) rfl

end FancyFlags
